import Mathlib

/-!
Verification of the Ethereum-events vote aggregation core of namada-node.

The development shallowly embeds the code of
src/apps/src/lib/node/ledger/protocol/transactions/ethereum_events/mod.rs
(together with the key schema of src/shared/src/ledger/eth_bridge/storage.rs)
and proves, or refutes, the specified properties of the tally merge
algorithm, the transition validator and the batch applier.

Modelling conventions:
- Addresses, block heights and event bodies are opaque identities,
  modelled as naturals.  Events are content addressed, so the storage
  prefix of an event is the event identity itself.
- FractionalVotingPower (a ratio of u64) is modelled as a rational.
- A BTreeSet of (ℕ, ℕ) pairs is modelled as a strictly
  increasing list in the lexicographic order, built by ordered insertion.
- A HashMap is modelled as an association list whose insert replaces the
  previous binding of the key; only its key set and lookups are observed.
- Fallible code (the eyre Result type, and Rust panics such as unwrap
  and expect) is modelled with Option: none is an error or a panic.
- Storage is the per-event tally record store, paired with counters of
  read and write accesses so that frame properties are expressible.
-/

namespace EthereumEvents

/-- The quorum threshold FractionalVotingPower::TWO_THIRDS. -/
def TWO_THIRDS : ℚ := 2 / 3

/-- A (validator, observation height) pair, one element of the seen_by
set of an update.  Validator addresses, heights and event bodies are
opaque identities modelled as naturals. -/
abbrev Sighting : Type := ℕ × ℕ

/-- The persisted tally for one event (struct EthMsg of the eth_msgs
module): body, running voting power, voters counted so far, and the
seen flag. -/
structure EthMsg where
  body : ℕ
  voting_power : ℚ
  seen_by : Finset ℕ
  seen : Bool
deriving DecidableEq

/-- A per-block update for one event (struct EthMsgUpdate): the event
body and the BTreeSet of sightings asserting it, given as its ascending
enumeration. -/
structure EthMsgUpdate where
  body : ℕ
  seen_by : List Sighting
deriving DecidableEq

/-- Storage keys.  An event's tally is stored under four sub-keys of a
prefix derived from the event's content hash (EthMsgKeys of
src/shared/src/ledger/eth_bridge/storage.rs); keys outside the eth_msgs
subspace (for instance wrapped ERC20 balances touched by act_on) are
collapsed into the external constructor. -/
inductive Key where
  | body (e : ℕ)
  | seen (e : ℕ)
  | seen_by (e : ℕ)
  | voting_power (e : ℕ)
  | external (n : Nat)
deriving DecidableEq

/-- The four tally keys of one event, as yielded by the Keys iterator. -/
def eth_msg_keys_all (e : ℕ) : Finset Key :=
  {Key.body e, Key.seen e, Key.seen_by e, Key.voting_power e}

/-- Lookup in a votes map (HashMap ℕ FractionalVotingPower),
modelled as an association list; keys are validator addresses. -/
def vLookup (a : ℕ) : List (ℕ × ℚ) → Option ℚ
  | [] => none
  | (b, w) :: m => if a = b then some w else vLookup a m

/-- Insert into a votes map, replacing any previous binding of the
address (HashMap::insert semantics). -/
def vInsert (a : ℕ) (w : ℚ) : List (ℕ × ℚ) → List (ℕ × ℚ)
  | [] => [(a, w)]
  | (b, u) :: m => if a = b then (a, w) :: m else (b, u) :: vInsert a w m

/-- The key set of a votes map (votes.keys() collected into a
BTreeSet of addresses). -/
def votersOf (votes : List (ℕ × ℚ)) : Finset ℕ :=
  (votes.map Prod.fst).toFinset

/-- The tally merge algorithm, calculate_update (mod.rs lines 208-265):
voters not yet in seen_by are recorded and their voting power added
(iterating the BTreeSet difference in ascending order); voters already
in seen_by are ignored; the new seen flag holds exactly when the new
voting power strictly exceeds TWO_THIRDS. -/
def calculate_update (eth_msg_pre : EthMsg) (votes : List (ℕ × ℚ)) : EthMsg :=
  let voters : Finset ℕ := votersOf votes
  let newly : List ℕ := (voters \ eth_msg_pre.seen_by).sort (· ≤ ·)
  let voting_power_post : ℚ :=
    newly.foldl (fun acc validator => acc + (vLookup validator votes).getD 0)
      eth_msg_pre.voting_power
  let seen_by_post : Finset ℕ :=
    newly.foldl (fun acc validator => insert validator acc) eth_msg_pre.seen_by
  { body := eth_msg_pre.body
    voting_power := voting_power_post
    seen_by := seen_by_post
    seen := decide (TWO_THIRDS < voting_power_post) }

/-- The transition validator, validate_update (mod.rs lines 270-333).
Returns the changed keys, or none for an error.  The final quorum check
is exactly the source's: it only errors when the voting power also
failed to increase, and its seen flag is the local variable recording
that the seen key changed in this transition, not the post seen
value. -/
def validate_update (pre post : EthMsg) : Option (Finset Key) :=
  if pre.body ≠ post.body then none
  else
    if pre.seen ≠ post.seen ∧ (pre.seen = true ∨ post.seen = false) then none
    else
      let keys1 : Finset Key :=
        if pre.seen ≠ post.seen then {Key.seen pre.body} else ∅
      if pre.seen_by ≠ post.seen_by ∧ ¬ pre.seen_by ⊆ post.seen_by then none
      else
        let keys2 : Finset Key :=
          if pre.seen_by ≠ post.seen_by then insert (Key.seen_by pre.body) keys1 else keys1
        if pre.voting_power ≠ post.voting_power ∧ post.voting_power ≤ pre.voting_power then none
        else
          let keys3 : Finset Key :=
            if pre.voting_power ≠ post.voting_power then
              insert (Key.voting_power pre.body) keys2
            else keys2
          if (TWO_THIRDS < post.voting_power ∧ ¬ (pre.seen ≠ post.seen))
              ∧ post.voting_power ≤ pre.voting_power then none
          else some keys3

/-- Strict lexicographic order on sightings: the order in which a Rust
BTreeSet of (ℕ, ℕ) pairs is iterated. -/
def sLt (x y : Sighting) : Prop :=
  x.1 < y.1 ∨ (x.1 = y.1 ∧ x.2 < y.2)

instance : DecidableRel sLt := fun x y =>
  decidable_of_iff (x.1 < y.1 ∨ (x.1 = y.1 ∧ x.2 < y.2)) Iff.rfl

/-- Ordered, duplicate-free insertion of a sighting: BTreeSet::insert. -/
def sIns (x : Sighting) : List Sighting → List Sighting
  | [] => [x]
  | y :: l => if x = y then y :: l else if sLt x y then x :: y :: l else y :: sIns x l

/-- Build the BTreeSet of sightings from the order in which they are
gathered: the merged seen_by set of an event. -/
def sOfList (l : List Sighting) : List Sighting :=
  l.foldl (fun s x => sIns x s) []

/-- The vote collection loop of apply_update (mod.rs lines 179-194):
walk the update's sightings in ascending order, unwrap each sighting's
voting power (a missing entry panics, modelled as none) and insert it
into the per-validator vote map, a later binding for the same validator
overwriting the earlier one. -/
def build_votes (powers : Sighting → Option ℚ) (votes : List (ℕ × ℚ)) :
    List Sighting → Option (List (ℕ × ℚ))
  | [] => some votes
  | s :: rest =>
    match powers s with
    | none => none
    | some w => build_votes powers (vInsert s.1 w votes) rest

/-- Modelled from the spec: the weight resolution step of calculate_new
and calculate_updated (the votes module of the crate, which is not under
src/).  Per spec section 4.2, a sighting whose validator has no resolved
weight contributes nothing and is dropped with at most a log line. -/
def resolved_votes (powers : Sighting → Option ℚ) (sightings : List Sighting) :
    List (ℕ × ℚ) :=
  sightings.foldl
    (fun m s =>
      match powers s with
      | none => m
      | some w => vInsert s.1 w m)
    []

/-- Modelled from the spec: calculate_new (votes module, not under
src/).  A first write treats the previous tally as empty: voting power
zero, no voters, not seen, body taken from the incoming event (spec
section 4.2, last bullet). -/
def calculate_new (body : ℕ) (sightings : List Sighting)
    (powers : Sighting → Option ℚ) : EthMsg :=
  calculate_update
    { body := body, voting_power := 0, seen_by := ∅, seen := false }
    (resolved_votes powers sightings)

/-- The tally record store: an association list from event identity to
its tally, kept sorted by key, together with counters of the storage
reads and writes performed (so that frame properties are visible). -/
def stLookup (e : ℕ) : List (ℕ × EthMsg) → Option EthMsg
  | [] => none
  | (f, m) :: s => if e = f then some m else stLookup e s

/-- Ordered insert-or-replace into the tally record store. -/
def stIns (e : ℕ) (v : EthMsg) : List (ℕ × EthMsg) → List (ℕ × EthMsg)
  | [] => [(e, v)]
  | (f, m) :: s =>
    if e = f then (e, v) :: s
    else if e < f then (e, v) :: (f, m) :: s
    else (f, m) :: stIns e v s

/-- Abstract storage handle with access accounting. -/
structure Storage where
  store : List (ℕ × EthMsg)
  reads : Nat
  writes : Nat
deriving DecidableEq

/-- Existence probe for an event's tally (storage.has_key on the seen
key, mod.rs line 157); counts as one read. -/
def has_key (s : Storage) (e : ℕ) : Bool × Storage :=
  ((stLookup e s.store).isSome, { s with reads := s.reads + 1 })

/-- Read an event's tally record; counts as one read. -/
def read_tally (s : Storage) (e : ℕ) : Option EthMsg × Storage :=
  (stLookup e s.store, { s with reads := s.reads + 1 })

/-- Persist an event's tally under its four sub-keys (write_eth_msg,
mod.rs lines 335-353, collapsed to one record write). -/
def write_eth_msg (s : Storage) (e : ℕ) (m : EthMsg) : Storage :=
  { s with store := stIns e m s.store, writes := s.writes + 1 }

/-- Modelled from the spec: calculate_updated (votes module, not under
src/) reads the existing tally of the event from storage and merges the
update's sightings into it per spec section 4.2, dropping sightings
with unresolved weight. -/
def calculate_updated (s : Storage) (e : ℕ) (sightings : List Sighting)
    (powers : Sighting → Option ℚ) : Option (EthMsg × Storage) :=
  match read_tally s e with
  | (none, _) => none
  | (some pre, s1) => some (calculate_update pre (resolved_votes powers sightings), s1)

/-- Apply one update to storage: apply_update (mod.rs lines 143-202).
Returns the changed keys and whether the event was newly confirmed.
The existence of the seen key selects between a first write (changed =
all four tally keys, confirmed = the new seen flag) and an update of an
existing tally, whose changed key set is left empty by the source (the
TODO namada#515 comment at line 172) so that its confirmed flag, which
tests membership of the seen key in that empty set, is always false.
After the branch the source still assembles the per-validator vote map
of lines 179-194, unwrapping every sighting's voting power, so a
missing entry panics; the remainder of the source function (lines
177-201) refers to a binding eth_msg_pre that does not exist and
mismatches the declared return type, so the embedding follows the
declared signature: the computed tally is persisted and (changed keys,
confirmed) returned. -/
def apply_update (s : Storage) (u : EthMsgUpdate) (powers : Sighting → Option ℚ) :
    Option (Storage × Finset Key × Bool) :=
  let hk := has_key s u.body
  let exists_in_storage := hk.1
  let s1 := hk.2
  let step : Option (EthMsg × Finset Key × Bool × Storage) :=
    if !exists_in_storage then
      let vote_tracking := calculate_new u.body u.seen_by powers
      some (vote_tracking, eth_msg_keys_all u.body, vote_tracking.seen, s1)
    else
      match calculate_updated s1 u.body u.seen_by powers with
      | none => none
      | some (vote_tracking, s2) =>
        let changed : Finset Key := ∅
        some (vote_tracking, changed,
          vote_tracking.seen && decide (Key.seen u.body ∈ changed), s2)
  match step with
  | none => none
  | some (vote_tracking, changed, confirmed, s2) =>
    match build_votes powers [] u.seen_by with
    | none => none
    | some _ => some (write_eth_msg s2 u.body vote_tracking, changed, confirmed)

/-- The loop of apply_updates (mod.rs lines 116-125): thread storage
through the updates, union the changed keys, and append the body of
each newly confirmed event. -/
def apply_updates_go (powers : Sighting → Option ℚ) (s : Storage)
    (changed_keys : Finset Key) (confirmed : List ℕ) :
    List EthMsgUpdate → Option (Storage × Finset Key × List ℕ)
  | [] => some (s, changed_keys, confirmed)
  | u :: rest =>
    match apply_update s u powers with
    | none => none
    | some (s1, changed, newly_confirmed) =>
      apply_updates_go powers s1 (changed_keys ∪ changed)
        (if newly_confirmed then confirmed ++ [u.body] else confirmed) rest

/-- Apply a batch of updates and act on newly confirmed events:
apply_updates (mod.rs lines 99-139).  The confirmation effect
events::act_on (events module, not under src/) is modelled from the
spec as an abstract per-event function returning the keys it changed,
per the apply_confirmation interface of spec section 6; the list of
confirmed events is also returned so that the number of act_on
invocations is observable. -/
def apply_updates (s : Storage) (updates : List EthMsgUpdate)
    (powers : Sighting → Option ℚ) (act_on : ℕ → Finset Key) :
    Option (Storage × Finset Key × List ℕ) :=
  match apply_updates_go powers s ∅ [] updates with
  | none => none
  | some (s1, changed_keys, confirmed) =>
    some (s1, confirmed.foldl (fun acc e => acc ∪ act_on e) changed_keys, confirmed)

/-- The entry point apply_derived_tx (mod.rs lines 36-63).  An empty
batch returns the default TxResult at once; otherwise the updates are
applied and the changed keys returned.  The voting power resolver
get_voting_powers is abstracted into the powers argument (its utils
module is not under src/), and the conversion of MultiSignedEthEvent
into EthMsgUpdate (eth_msgs module, also absent) is taken as already
done; the final component counts the confirmation effects. -/
def apply_derived_tx (s : Storage) (events : List EthMsgUpdate)
    (powers : Sighting → Option ℚ) (act_on : ℕ → Finset Key) :
    Option (Storage × Finset Key × Nat) :=
  if events.isEmpty then some (s, ∅, 0)
  else
    match apply_updates s events powers act_on with
    | none => none
    | some (s1, changed_keys, confirmed) => some (s1, changed_keys, confirmed.length)

/-- Two validators of equal weight 100 of 200: each sighting resolves
to one half. -/
def pow_half : Sighting → Option ℚ :=
  fun sight => if sight = (0, 10) ∨ sight = (1, 20) then some (1 / 2) else none

/-- Validator 0 (weight 100 of 200) sights event 5 at height 10. -/
def upd_A : EthMsgUpdate := { body := 5, seen_by := [(0, 10)] }

/-- Validator 1 (weight 100 of 200) sights event 5 at height 20. -/
def upd_B : EthMsgUpdate := { body := 5, seen_by := [(1, 20)] }

/-- Empty storage with zeroed access counters. -/
def storage0 : Storage := { store := [], reads := 0, writes := 0 }

/-- A confirmation effect that changes no keys. -/
def act_none : ℕ → Finset Key := fun _ => ∅

/-- The tally of event 5 after the first batch: half the voting power,
not yet seen. -/
def msg_A : EthMsg := { body := 5, voting_power := 1 / 2, seen_by := {0}, seen := false }

/-- Storage after the first batch. -/
def storage1 : Storage := { store := [(5, msg_A)], reads := 1, writes := 1 }

/-- The tally of event 5 after the second batch: full voting power,
seen by both validators. -/
def msg_AB : EthMsg := { body := 5, voting_power := 1, seen_by := {0, 1}, seen := true }

/-- A transition the spec forbids: voting power jumps above the quorum
threshold while seen stays false. -/
def pre5 : EthMsg := { body := 5, voting_power := 0, seen_by := ∅, seen := false }

/-- The forbidden post state for pre5. -/
def post5 : EthMsg := { body := 5, voting_power := 3 / 4, seen_by := {1}, seen := false }

/-- A voting power table that resolves no sighting at all. -/
def pow_none : Sighting → Option ℚ := fun _ => none

/-- An update whose sole sighting has no resolved weight. -/
def upd_C : EthMsgUpdate := { body := 7, seen_by := [(2, 30)] }

/-- Whether the event of an update already has a tally in storage. -/
def upd_exists (s : Storage) (u : EthMsgUpdate) : Bool :=
  (stLookup u.body s.store).isSome

/-- The tally apply_update computes for an update: a fresh one for an
unseen event, a merge into the stored one otherwise. -/
def upd_tally (s : Storage) (u : EthMsgUpdate) (powers : Sighting → Option ℚ) : EthMsg :=
  match stLookup u.body s.store with
  | none => calculate_new u.body u.seen_by powers
  | some pre => calculate_update pre (resolved_votes powers u.seen_by)

/-- Closed form of a successful apply_update: the resulting storage,
changed keys and confirmation flag as functions of the starting
state. -/
def apply_update_spec (s : Storage) (u : EthMsgUpdate) (powers : Sighting → Option ℚ) :
    Storage × Finset Key × Bool :=
  ({ store := stIns u.body (upd_tally s u powers) s.store
     reads := s.reads + (if upd_exists s u then 2 else 1)
     writes := s.writes + 1 },
   (if upd_exists s u then (∅ : Finset Key) else eth_msg_keys_all u.body),
   (if upd_exists s u then false else (calculate_new u.body u.seen_by powers).seen))

/-- Relation between outcomes of the batch loop: equal storage, equal
changed keys, and confirmed event lists equal up to order. -/
def go_rel :
    Option (Storage × Finset Key × List ℕ) →
      Option (Storage × Finset Key × List ℕ) → Prop
  | none, none => True
  | some a, some b => a.1 = b.1 ∧ a.2.1 = b.2.1 ∧ a.2.2.Perm b.2.2
  | _, _ => False

theorem vLookup_vInsert_self (a : ℕ) (w : ℚ) :
    ∀ m : List (ℕ × ℚ), vLookup a (vInsert a w m) = some w
  | [] => by simp [vInsert, vLookup]
  | (b, u) :: m => by
    by_cases h : a = b
    · simp [vInsert, h, vLookup]
    · simp [vInsert, h, vLookup, vLookup_vInsert_self a w m]

theorem vLookup_vInsert_ne (a b : ℕ) (w : ℚ) (h : a ≠ b) :
    ∀ m : List (ℕ × ℚ), vLookup a (vInsert b w m) = vLookup a m
  | [] => by simp [vInsert, vLookup, h]
  | (c, u) :: m => by
    by_cases hbc : b = c
    · subst hbc
      simp [vInsert, vLookup, h]
    · by_cases hac : a = c
      · simp [vInsert, hbc, vLookup, hac]
      · simp [vInsert, hbc, vLookup, hac, vLookup_vInsert_ne a b w h m]

theorem vLookup_getD_nonneg (a : ℕ) :
    ∀ m : List (ℕ × ℚ), (∀ p ∈ m, 0 ≤ p.2) → 0 ≤ (vLookup a m).getD 0
  | [], _ => by simp [vLookup]
  | (b, u) :: m, h => by
    by_cases hab : a = b
    · simpa [vLookup, hab] using h (b, u) (List.mem_cons_self _ _)
    · simpa [vLookup, hab] using
        vLookup_getD_nonneg a m (fun p hp => h p (List.mem_cons_of_mem _ hp))

theorem foldl_add_map (f : ℕ → ℚ) :
    ∀ (l : List ℕ) (i : ℚ),
      l.foldl (fun acc a => acc + f a) i = i + (l.map f).sum
  | [], i => by simp
  | a :: l, i => by
    simp [List.foldl_cons, foldl_add_map f l (i + f a), add_assoc]

theorem sort_map_sum (s : Finset ℕ) (f : ℕ → ℚ) :
    (((s.sort (· ≤ ·)).map f).sum) = ∑ a ∈ s, f a := by
  have h : List.Perm (s.sort (· ≤ ·)) s.toList := Finset.sort_perm_toList _ s
  exact ((h.map f).sum_eq).trans (Finset.sum_to_list s f)

theorem foldl_insert_eq :
    ∀ (l : List ℕ) (s : Finset ℕ),
      l.foldl (fun acc a => insert a acc) s = s ∪ l.toFinset
  | [], s => by simp
  | a :: l, s => by
    rw [List.foldl_cons, foldl_insert_eq l (insert a s)]
    ext x
    simp [or_comm, or_left_comm]

theorem calculate_update_body (pre : EthMsg) (votes : List (ℕ × ℚ)) :
    (calculate_update pre votes).body = pre.body := rfl

theorem calculate_update_voting_power (pre : EthMsg) (votes : List (ℕ × ℚ)) :
    (calculate_update pre votes).voting_power
      = pre.voting_power + ∑ a ∈ votersOf votes \ pre.seen_by, (vLookup a votes).getD 0 := by
  simp only [calculate_update]
  rw [foldl_add_map, sort_map_sum]

theorem calculate_update_seen_by (pre : EthMsg) (votes : List (ℕ × ℚ)) :
    (calculate_update pre votes).seen_by
      = pre.seen_by ∪ (votersOf votes \ pre.seen_by) := by
  simp only [calculate_update]
  rw [foldl_insert_eq, Finset.sort_toFinset]

theorem calculate_update_seen_def (pre : EthMsg) (votes : List (ℕ × ℚ)) :
    (calculate_update pre votes).seen = true
      ↔ TWO_THIRDS < (calculate_update pre votes).voting_power := by
  simp only [calculate_update, decide_eq_true_eq]

theorem calculate_update_vp_mono (pre : EthMsg) (votes : List (ℕ × ℚ))
    (hnn : ∀ p ∈ votes, 0 ≤ p.2) :
    pre.voting_power ≤ (calculate_update pre votes).voting_power := by
  rw [calculate_update_voting_power]
  have h : 0 ≤ ∑ a ∈ votersOf votes \ pre.seen_by, (vLookup a votes).getD 0 :=
    Finset.sum_nonneg fun a _ => vLookup_getD_nonneg a votes hnn
  linarith

theorem calculate_update_seen_by_mono (pre : EthMsg) (votes : List (ℕ × ℚ)) :
    pre.seen_by ⊆ (calculate_update pre votes).seen_by := by
  rw [calculate_update_seen_by]
  exact Finset.subset_union_left

/-- C1: in every merge computed by calculate_update on a well formed
previous tally (one whose seen flag, if set, is backed by quorum voting
power, as is the case for every tally the program ever produces, per the
third conjunct) with nonnegative vote weights, the new seen flag holds
exactly when the previous seen flag was already set or the new voting
power strictly exceeds the two thirds threshold; in particular a set
seen flag stays set, and the output is again well formed. -/
theorem calculate_update_seen_iff_quorum (pre : EthMsg) (votes : List (ℕ × ℚ))
    (hwf : pre.seen = true → TWO_THIRDS < pre.voting_power)
    (hnn : ∀ p ∈ votes, 0 ≤ p.2) :
    ((calculate_update pre votes).seen = true
        ↔ (pre.seen = true ∨ TWO_THIRDS < (calculate_update pre votes).voting_power))
      ∧ (pre.seen = true → (calculate_update pre votes).seen = true)
      ∧ ((calculate_update pre votes).seen = true
          → TWO_THIRDS < (calculate_update pre votes).voting_power) := by
  have hmono := calculate_update_vp_mono pre votes hnn
  have hdef := calculate_update_seen_def pre votes
  refine ⟨⟨fun h => Or.inr (hdef.mp h), ?_⟩, fun h => ?_, fun h => hdef.mp h⟩
  · rintro (h | h)
    · exact hdef.mpr (lt_of_lt_of_le (hwf h) hmono)
    · exact hdef.mpr h
  · exact hdef.mpr (lt_of_lt_of_le (hwf h) hmono)

/-- Witness for C1 at a concrete input: a tally already seen with
voting power three quarters, merged with one additional small vote. -/
theorem calculate_update_seen_iff_quorum_witness :
    ((calculate_update ⟨4, 3 / 4, {2}, true⟩ [(1, 1 / 10)]).seen = true
        ↔ ((⟨4, 3 / 4, {2}, true⟩ : EthMsg).seen = true
            ∨ TWO_THIRDS < (calculate_update ⟨4, 3 / 4, {2}, true⟩ [(1, 1 / 10)]).voting_power))
      ∧ ((⟨4, 3 / 4, {2}, true⟩ : EthMsg).seen = true
          → (calculate_update ⟨4, 3 / 4, {2}, true⟩ [(1, 1 / 10)]).seen = true)
      ∧ ((calculate_update ⟨4, 3 / 4, {2}, true⟩ [(1, 1 / 10)]).seen = true
          → TWO_THIRDS < (calculate_update ⟨4, 3 / 4, {2}, true⟩ [(1, 1 / 10)]).voting_power) :=
  calculate_update_seen_iff_quorum ⟨4, 3 / 4, {2}, true⟩ [(1, 1 / 10)]
    (by intro h; norm_num [TWO_THIRDS]) (by norm_num)

/-- C3: the merge partitions the asserting validators against the
previous seen_by set: the new voting power is the previous one plus the
weights of exactly the newly counted validators, the new seen_by is the
union of the previous one with the newly counted validators, and a
batch of voters already counted changes neither voting power nor
seen_by. -/
theorem calculate_update_partitions_voters (pre : EthMsg) (votes : List (ℕ × ℚ)) :
    (calculate_update pre votes).voting_power
        = pre.voting_power + ∑ a ∈ votersOf votes \ pre.seen_by, (vLookup a votes).getD 0
      ∧ (calculate_update pre votes).seen_by
          = pre.seen_by ∪ (votersOf votes \ pre.seen_by)
      ∧ (votersOf votes ⊆ pre.seen_by
          → (calculate_update pre votes).voting_power = pre.voting_power
            ∧ (calculate_update pre votes).seen_by = pre.seen_by) := by
  refine ⟨calculate_update_voting_power pre votes, calculate_update_seen_by pre votes, fun h => ?_⟩
  have hempty : votersOf votes \ pre.seen_by = ∅ := Finset.sdiff_eq_empty_iff_subset.mpr h
  constructor
  · rw [calculate_update_voting_power, hempty]
    simp
  · rw [calculate_update_seen_by, hempty]
    simp

/-- Witness for C3 at a concrete input whose single voter is already
counted, discharging the hypothesis of the third conjunct. -/
theorem calculate_update_partitions_voters_witness :
    (calculate_update ⟨1, 1 / 2, {3}, false⟩ [(3, 1 / 4)]).voting_power
        = (⟨1, 1 / 2, {3}, false⟩ : EthMsg).voting_power
          + ∑ a ∈ votersOf [(3, 1 / 4)] \ ({3} : Finset ℕ), (vLookup a [(3, 1 / 4)]).getD 0
      ∧ (calculate_update ⟨1, 1 / 2, {3}, false⟩ [(3, 1 / 4)]).seen_by
          = ({3} : Finset ℕ) ∪ (votersOf [(3, 1 / 4)] \ ({3} : Finset ℕ))
      ∧ ((calculate_update ⟨1, 1 / 2, {3}, false⟩ [(3, 1 / 4)]).voting_power
            = (⟨1, 1 / 2, {3}, false⟩ : EthMsg).voting_power
          ∧ (calculate_update ⟨1, 1 / 2, {3}, false⟩ [(3, 1 / 4)]).seen_by
              = (⟨1, 1 / 2, {3}, false⟩ : EthMsg).seen_by) :=
  ⟨(calculate_update_partitions_voters ⟨1, 1 / 2, {3}, false⟩ [(3, 1 / 4)]).1,
   (calculate_update_partitions_voters ⟨1, 1 / 2, {3}, false⟩ [(3, 1 / 4)]).2.1,
   (calculate_update_partitions_voters ⟨1, 1 / 2, {3}, false⟩ [(3, 1 / 4)]).2.2 (by simp [votersOf])⟩

theorem scanl_head (f : EthMsg → List (ℕ × ℚ) → EthMsg) (b : EthMsg)
    (l : List (List (ℕ × ℚ))) : (List.scanl f b l).head? = some b := by
  cases l with
  | nil => simp [List.scanl_nil]
  | cons a l => simp [List.scanl_cons]

/-- C7: along any sequence of merges starting from a well formed tally
(every persisted tally is one) with nonnegative vote weights, the tally
evolves monotonically: seen_by only grows, voting power never
decreases and strictly increases whenever it changes, and the seen flag
never falls back from true to false. -/
theorem tally_evolution_monotone (init : EthMsg) (vss : List (List (ℕ × ℚ)))
    (hwf : init.seen = true → TWO_THIRDS < init.voting_power)
    (hnn : ∀ vs ∈ vss, ∀ p ∈ vs, 0 ≤ p.2) :
    List.Chain'
      (fun a b => a.seen_by ⊆ b.seen_by ∧ a.voting_power ≤ b.voting_power
        ∧ (a.voting_power ≠ b.voting_power → a.voting_power < b.voting_power)
        ∧ (a.seen = true → b.seen = true))
      (List.scanl calculate_update init vss) := by
  induction vss generalizing init with
  | nil => simp [List.scanl_nil]
  | cons vs vss ih =>
    have hshape : List.scanl calculate_update init (vs :: vss)
        = init :: List.scanl calculate_update (calculate_update init vs) vss := rfl
    rw [hshape]
    have hnn0 : ∀ p ∈ vs, 0 ≤ p.2 := hnn vs (List.mem_cons_self _ _)
    have hmono := calculate_update_vp_mono init vs hnn0
    have hdef := calculate_update_seen_def init vs
    refine List.chain'_cons'.mpr ⟨?_, ?_⟩
    · intro y hy
      rw [scanl_head] at hy
      cases hy
      exact ⟨calculate_update_seen_by_mono init vs, hmono,
        fun hne => lt_of_le_of_ne hmono hne,
        fun h => hdef.mpr (lt_of_lt_of_le (hwf h) hmono)⟩
    · exact ih (calculate_update init vs) (fun h => hdef.mp h)
        (fun vs' h => hnn vs' (List.mem_cons_of_mem _ h))

/-- Witness for C7 at a concrete two batch sequence reaching quorum. -/
theorem tally_evolution_monotone_witness :
    List.Chain'
      (fun a b => a.seen_by ⊆ b.seen_by ∧ a.voting_power ≤ b.voting_power
        ∧ (a.voting_power ≠ b.voting_power → a.voting_power < b.voting_power)
        ∧ (a.seen = true → b.seen = true))
      (List.scanl calculate_update ⟨9, 0, ∅, false⟩ [[(1, 1 / 2)], [(2, 1 / 2)]]) :=
  tally_evolution_monotone ⟨9, 0, ∅, false⟩ [[(1, 1 / 2)], [(2, 1 / 2)]]
    (by simp) (by norm_num)

/-- C5: validate_update accepts a transition in which the voting power
rises from zero to three quarters, above the two thirds threshold,
while the seen flag stays false, because its final quorum check only
fires when the voting power also failed to increase; the claimed error
is not returned, violating invariant 5 of the specification. -/
theorem validate_update_accepts_quorum_unseen :
    TWO_THIRDS < post5.voting_power ∧ post5.seen = false ∧ pre5.body = post5.body
      ∧ validate_update pre5 post5 = some {Key.seen_by 5, Key.voting_power 5} := by
  norm_num [validate_update, pre5, post5, TWO_THIRDS,
    (show ¬(∅:Finset ℕ) = {1} by decide),
    (show insert (Key.voting_power 5) ({Key.seen_by 5}:Finset Key)
        = {Key.seen_by 5, Key.voting_power 5} by decide)]

/-- C9: an empty batch is a complete no-op: apply_derived_tx returns
the unchanged storage handle (so in particular its read and write
counters are untouched: no storage access of any kind happens), an
empty changed key set and zero confirmations. -/
theorem apply_derived_tx_empty_noop (s : Storage) (powers : Sighting → Option ℚ)
    (act_on : ℕ → Finset Key) :
    apply_derived_tx s [] powers act_on = some (s, ∅, 0) := rfl

/-- C2: in the two equal validators scenario, the second batch produces
the tally the specification demands (seen true, voting power one, seen
by both validators) but zero confirmation effect invocations, not one:
for an event already in storage the changed key set is left empty (the
TODO namada#515 in apply_update), so the confirmed flag, which tests
the seen key against that empty set, is always false. -/
theorem second_batch_confirmation_never_fires :
    apply_derived_tx storage0 [upd_A] pow_half act_none
        = some (storage1, eth_msg_keys_all 5, 0)
      ∧ apply_derived_tx storage1 [upd_B] pow_half act_none
          = some ({ store := [(5, msg_AB)], reads := 3, writes := 2 }, ∅, 0)
      ∧ msg_A.seen = false ∧ msg_AB.seen = true
      ∧ msg_AB.voting_power = 1 ∧ msg_AB.seen_by = {0, 1} := by
  norm_num [apply_derived_tx, apply_updates, apply_updates_go, apply_update, has_key,
    read_tally, write_eth_msg, calculate_updated, calculate_new, calculate_update,
    resolved_votes, build_votes, vInsert, vLookup, votersOf, stLookup, stIns,
    upd_A, upd_B, pow_half, storage0, storage1, msg_A, msg_AB, act_none,
    eth_msg_keys_all, TWO_THIRDS, Finset.sort_singleton,
    (show ({1}:Finset ℕ) \ {0} = {1} by decide),
    (show ({1, 0}:Finset ℕ) = {0, 1} by decide)]

/-- C6: for an update to an existing tally, apply_update reports an
empty changed key set even though the stored seen, seen_by and voting
power values all change (TODO namada#515 in the source); the claimed
per-difference key set is not produced. -/
theorem apply_update_changed_keys_empty_for_existing :
    apply_update storage1 upd_B pow_half
        = some ({ store := [(5, msg_AB)], reads := 3, writes := 2 }, ∅, false)
      ∧ msg_A.seen ≠ msg_AB.seen ∧ msg_A.seen_by ≠ msg_AB.seen_by
      ∧ msg_A.voting_power ≠ msg_AB.voting_power := by
  norm_num [apply_update, has_key, read_tally, write_eth_msg, calculate_updated,
    calculate_new, calculate_update, resolved_votes, build_votes, vInsert, vLookup,
    votersOf, stLookup, stIns, upd_B, pow_half, storage1, msg_A, msg_AB,
    eth_msg_keys_all, TWO_THIRDS, Finset.sort_singleton,
    (show ({1}:Finset ℕ) \ {0} = {1} by decide),
    (show ({1, 0}:Finset ℕ) = {0, 1} by decide),
    (show ¬({0}:Finset ℕ) = {0, 1} by decide)]

theorem build_votes_none (powers : Sighting → Option ℚ) (sight : Sighting) :
    ∀ (l : List Sighting) (m : List (ℕ × ℚ)),
      sight ∈ l → powers sight = none → build_votes powers m l = none
  | [], _, h, _ => absurd h (List.not_mem_nil _)
  | s :: rest, m, h, hnone => by
    rcases List.mem_cons.mp h with rfl | hmem
    · simp [build_votes, hnone]
    · cases hp : powers s with
      | none => simp [build_votes, hp]
      | some w =>
        simpa [build_votes, hp] using
          build_votes_none powers sight rest (vInsert s.1 w m) hmem hnone

theorem apply_update_build_votes_none (s : Storage) (u : EthMsgUpdate)
    (powers : Sighting → Option ℚ) (hbv : build_votes powers [] u.seen_by = none) :
    apply_update s u powers = none := by
  unfold apply_update
  cases hs : stLookup u.body s.store with
  | none => simp [has_key, hs, hbv]
  | some pre => simp [has_key, hs, hbv, calculate_updated, read_tally]

/-- C4 counterexample: an update whose sole sighting has no entry in
the voting power table makes apply_update abort (the unwrap in the
vote collection loop panics) instead of succeeding with the sighting
dropped. -/
theorem unresolved_weight_aborts_apply_update :
    (2, 30) ∈ upd_C.seen_by ∧ pow_none (2, 30) = none
      ∧ apply_update storage0 upd_C pow_none = none := by
  refine ⟨by simp [upd_C], rfl, ?_⟩
  norm_num [apply_update, has_key, read_tally, calculate_new, calculate_update,
    resolved_votes, build_votes, vInsert, vLookup, votersOf, stLookup,
    upd_C, pow_none, storage0, TWO_THIRDS]

/-- C4 amended: a sighting whose (validator, height) pair has no
resolved weight causes apply_update to fail (the source unwraps the
lookup, a panic), for every storage state and update containing such a
sighting; the sighting is not dropped.  Only the weight resolution
inside the spec modelled calculate_new and calculate_updated drops
unresolved sightings. -/
theorem apply_update_unresolved_weight_fails (s : Storage) (u : EthMsgUpdate)
    (powers : Sighting → Option ℚ) (sight : Sighting)
    (hmem : sight ∈ u.seen_by) (hnone : powers sight = none) :
    apply_update s u powers = none :=
  apply_update_build_votes_none s u powers
    (build_votes_none powers sight u.seen_by [] hmem hnone)

/-- Witness for C4 at the concrete unresolved sighting. -/
theorem apply_update_unresolved_weight_fails_witness :
    apply_update storage0 upd_C pow_none = none :=
  apply_update_unresolved_weight_fails storage0 upd_C pow_none (2, 30)
    (by simp [upd_C]) rfl

theorem build_votes_lookup (powers : Sighting → Option ℚ) (a : ℕ) :
    ∀ (l : List Sighting) (m m' : List (ℕ × ℚ)),
      build_votes powers m l = some m' →
      vLookup a m' = ((l.filter fun s => s.1 == a).getLast?).elim (vLookup a m) powers
  | [], m, m', h => by
    simp [build_votes] at h
    simp [h]
  | s :: rest, m, m', h => by
    cases hp : powers s with
    | none => simp [build_votes, hp] at h
    | some w =>
      rw [build_votes, hp] at h
      have ih := build_votes_lookup powers a rest (vInsert s.1 w m) m' h
      by_cases hsa : s.1 = a
      · have hcond : (s.1 == a) = true := by simp [hsa]
        rw [show (s :: rest).filter (fun t : Sighting => t.1 == a)
            = s :: rest.filter (fun t : Sighting => t.1 == a) from by
          simp [List.filter_cons, hcond]]
        cases hrest : rest.filter fun t => t.1 == a with
        | nil =>
          rw [hrest] at ih
          simp only [List.getLast?_singleton, Option.elim]
          rw [ih, ← hsa, hp]
          simp [vLookup_vInsert_self]
        | cons t L =>
          rw [hrest] at ih
          rw [List.getLast?_cons_cons]
          exact ih
      · have hcond : (s.1 == a) = false := by simp [hsa]
        rw [show (s :: rest).filter (fun t : Sighting => t.1 == a)
            = rest.filter (fun t : Sighting => t.1 == a) from by
          simp [List.filter_cons, hcond]]
        rw [ih]
        cases hrest : rest.filter fun t => t.1 == a with
        | nil =>
          simp only [hrest, Option.elim]
          exact vLookup_vInsert_ne a s.1 w (fun he => hsa he.symm) m
        | cons t L =>
          rw [List.getLast?_eq_getLast_of_ne_nil (List.cons_ne_nil t L)]
          rfl

theorem filtered_getLast_eq (a : ℕ) (hh : ℕ) :
    ∀ L : List Sighting, L.Pairwise sLt → (∀ x ∈ L, x.1 = a) → (a, hh) ∈ L →
      (∀ h, (a, h) ∈ L → h ≤ hh) → L.getLast? = some (a, hh)
  | [], _, _, hm, _ => absurd hm (List.not_mem_nil _)
  | [x], _, _, hm, _ => by
    rcases List.mem_singleton.mp hm with rfl
    rfl
  | x :: y :: L, hs, hall, hm, hbound => by
    rcases List.pairwise_cons.mp hs with ⟨hx, htail⟩
    have hmem : (a, hh) ∈ y :: L := by
      rcases List.mem_cons.mp hm with rfl | hmem
      · exfalso
        have hy1 : y.1 = a := hall y (by simp)
        have hlt : sLt (a, hh) y := hx y (by simp)
        have hylt : y.2 ≤ hh := hbound y.2 (by
          have : y = (a, y.2) := by
            rw [← hy1]
          rw [← this]
          simp)
        rcases hlt with h1 | ⟨_, h2⟩
        · simp [hy1] at h1
        · have h2' : hh < y.2 := h2
          exact absurd h2' (Nat.not_lt.mpr hylt)
      · exact hmem
    rw [List.getLast?_cons_cons]
    exact filtered_getLast_eq a hh (y :: L) htail
      (fun x hx2 => hall x (List.mem_cons_of_mem _ hx2)) hmem
      (fun h hmh => hbound h (List.mem_cons_of_mem _ hmh))

/-- C10: when a validator appears with two or more different heights in
an update, the weight recorded for it in the per-validator vote map is
the resolved weight of the last such pair in the ascending iteration
order of the sighting set (the greatest height), the later binding
overwriting the earlier one. -/
theorem build_votes_last_sighting_wins (powers : Sighting → Option ℚ)
    (l : List Sighting) (m : List (ℕ × ℚ)) (a : ℕ) (h1 h2 : ℕ)
    (hsorted : l.Pairwise sLt) (_hm1 : (a, h1) ∈ l) (hm2 : (a, h2) ∈ l) (_hne : h1 ≠ h2)
    (hmax : ∀ h, (a, h) ∈ l → h ≤ h2)
    (hbv : build_votes powers [] l = some m) :
    vLookup a m = powers (a, h2) := by
  have hlook := build_votes_lookup powers a l [] m hbv
  have hfeq : (l.filter fun s => s.1 == a).getLast? = some (a, h2) := by
    apply filtered_getLast_eq
    · exact List.Pairwise.filter _ hsorted
    · intro x hx
      have hmem := List.of_mem_filter hx
      exact eq_of_beq hmem
    · exact List.mem_filter.mpr ⟨hm2, by simp⟩
    · intro h hmem
      exact hmax h (List.mem_of_mem_filter hmem)
  rw [hfeq] at hlook
  exact hlook

/-- Witness for C10: validator 3 sighted at heights 1 and 2 with
different resolved weights; the height 2 weight is recorded. -/
theorem build_votes_last_sighting_wins_witness :
    vLookup 3 [(3, 1 / 2)]
      = (fun s : Sighting => if s.2 = 1 then some ((1 : ℚ) / 4) else some (1 / 2)) (3, 2) :=
  build_votes_last_sighting_wins
    (fun s : Sighting => if s.2 = 1 then some ((1 : ℚ) / 4) else some (1 / 2))
    [(3, 1), (3, 2)] [(3, 1 / 2)] 3 1 2
    (by decide) (by decide) (by decide) (by decide)
    (by
      intro h hm
      rcases List.mem_cons.mp hm with he | hm2
      · injection he with h1 h2
        subst h2
        decide
      · rcases List.mem_cons.mp hm2 with he2 | hnil
        · injection he2 with h1 h2
          subst h2
          decide
        · exact absurd hnil (List.not_mem_nil _))
    rfl

theorem sLt_irrefl (x : Sighting) : ¬ sLt x x := by
  simp [sLt]

theorem sLt_trans {x y z : Sighting} (h1 : sLt x y) (h2 : sLt y z) : sLt x z := by
  unfold sLt at h1 h2 ⊢
  omega

theorem sLt_total {x y : Sighting} (h : x ≠ y) : sLt x y ∨ sLt y x := by
  rw [Ne, Prod.ext_iff] at h
  unfold sLt
  omega

theorem sLt_asymm {x y : Sighting} (h : sLt x y) : ¬ sLt y x := by
  unfold sLt at h ⊢
  omega

theorem mem_sIns (a x : Sighting) : ∀ l : List Sighting, a ∈ sIns x l ↔ a = x ∨ a ∈ l
  | [] => by simp [sIns]
  | y :: l => by
    by_cases h1 : x = y
    · subst h1
      simp [sIns]
    · by_cases h2 : sLt x y
      · simp [sIns, h1, h2]
      · simp [sIns, h1, h2, mem_sIns a x l]
        tauto

theorem pairwise_sIns (x : Sighting) :
    ∀ {l : List Sighting}, l.Pairwise sLt → (sIns x l).Pairwise sLt := by
  intro l
  induction l with
  | nil => intro _; simp [sIns]
  | cons y l ih =>
    intro h
    rcases List.pairwise_cons.mp h with ⟨hy, hl⟩
    by_cases h1 : x = y
    · subst h1
      simpa [sIns] using h
    · by_cases h2 : sLt x y
      · simp only [sIns, if_neg h1, if_pos h2]
        refine List.pairwise_cons.mpr ⟨?_, h⟩
        intro z hz
        rcases List.mem_cons.mp hz with rfl | hz
        · exact h2
        · exact sLt_trans h2 (hy z hz)
      · have hyx : sLt y x := (sLt_total h1).resolve_left h2
        simp only [sIns, if_neg h1, if_neg h2]
        refine List.pairwise_cons.mpr ⟨?_, ih hl⟩
        intro z hz
        rcases (mem_sIns z x l).mp hz with rfl | hz
        · exact hyx
        · exact hy z hz

theorem sorted_mem_ext :
    ∀ {l1 l2 : List Sighting}, l1.Pairwise sLt → l2.Pairwise sLt →
      (∀ a, a ∈ l1 ↔ a ∈ l2) → l1 = l2
  | [], [], _, _, _ => rfl
  | [], y :: l2, _, _, hm => absurd ((hm y).mpr (List.mem_cons_self _ _)) (List.not_mem_nil _)
  | x :: l1, [], _, _, hm => absurd ((hm x).mp (List.mem_cons_self _ _)) (List.not_mem_nil _)
  | x :: l1, y :: l2, h1, h2, hm => by
    rcases List.pairwise_cons.mp h1 with ⟨hx, hl1⟩
    rcases List.pairwise_cons.mp h2 with ⟨hy, hl2⟩
    have hxy : x = y := by
      rcases List.mem_cons.mp ((hm x).mp (List.mem_cons_self _ _)) with rfl | hx2
      · rfl
      · rcases List.mem_cons.mp ((hm y).mpr (List.mem_cons_self _ _)) with rfl | hy1
        · rfl
        · exact absurd (hx y hy1) (sLt_asymm (hy x hx2))
    subst hxy
    have htail : ∀ a, a ∈ l1 ↔ a ∈ l2 := by
      intro a
      constructor
      · intro ha
        rcases List.mem_cons.mp ((hm a).mp (List.mem_cons_of_mem _ ha)) with rfl | hmem
        · exact absurd (hx a ha) (sLt_irrefl a)
        · exact hmem
      · intro ha
        rcases List.mem_cons.mp ((hm a).mpr (List.mem_cons_of_mem _ ha)) with rfl | hmem
        · exact absurd (hy a ha) (sLt_irrefl a)
        · exact hmem
    rw [sorted_mem_ext hl1 hl2 htail]

theorem pairwise_foldl_sIns :
    ∀ (l s : List Sighting), s.Pairwise sLt →
      (l.foldl (fun acc x => sIns x acc) s).Pairwise sLt
  | [], _, h => h
  | x :: l, s, h => pairwise_foldl_sIns l (sIns x s) (pairwise_sIns x h)

theorem mem_foldl_sIns (a : Sighting) :
    ∀ (l s : List Sighting), a ∈ l.foldl (fun acc x => sIns x acc) s ↔ a ∈ s ∨ a ∈ l
  | [], s => by simp
  | x :: l, s => by
    rw [List.foldl_cons, mem_foldl_sIns a l (sIns x s), mem_sIns]
    simp only [List.mem_cons]
    tauto

theorem sOfList_sorted (l : List Sighting) : (sOfList l).Pairwise sLt :=
  pairwise_foldl_sIns l [] List.Pairwise.nil

theorem mem_sOfList (a : Sighting) (l : List Sighting) : a ∈ sOfList l ↔ a ∈ l := by
  rw [sOfList, mem_foldl_sIns]
  simp

theorem sOfList_perm_eq {l1 l2 : List Sighting} (h : List.Perm l1 l2) :
    sOfList l1 = sOfList l2 :=
  sorted_mem_ext (sOfList_sorted l1) (sOfList_sorted l2)
    (fun a => by rw [mem_sOfList, mem_sOfList]; exact h.mem_iff)

theorem stLookup_stIns_self (e : ℕ) (v : EthMsg) :
    ∀ s : List (ℕ × EthMsg), stLookup e (stIns e v s) = some v
  | [] => by simp [stIns, stLookup]
  | (f, m) :: s => by
    by_cases h : e = f
    · simp [stIns, h, stLookup]
    · rcases Nat.lt_or_ge e f with hlt | hge
      · simp [stIns, h, hlt, stLookup]
      · have hnlt : ¬ e < f := Nat.not_lt.mpr hge
        simp [stIns, h, hnlt, stLookup, stLookup_stIns_self e v s]

theorem stLookup_stIns_ne (e f : ℕ) (v : EthMsg) (hef : e ≠ f) :
    ∀ s : List (ℕ × EthMsg), stLookup e (stIns f v s) = stLookup e s
  | [] => by simp [stIns, stLookup, hef]
  | (g, m) :: s => by
    by_cases hfg : f = g
    · subst hfg
      simp [stIns, stLookup, hef]
    · rcases Nat.lt_or_ge f g with hlt | hge
      · simp [stIns, hfg, hlt, stLookup, hef]
      · have hnlt : ¬ f < g := Nat.not_lt.mpr hge
        by_cases heg : e = g
        · simp [stIns, hfg, hnlt, stLookup, heg]
        · simp [stIns, hfg, hnlt, stLookup, heg, stLookup_stIns_ne e f v hef s]

theorem stIns_comm (e f : ℕ) (v w : EthMsg) (hef : e ≠ f) :
    ∀ s : List (ℕ × EthMsg), stIns e v (stIns f w s) = stIns f w (stIns e v s) := by
  have hfe : f ≠ e := Ne.symm hef
  intro s
  induction s with
  | nil =>
    rcases Nat.lt_or_gt_of_ne hef with h | h
    · have h1 : ¬ f < e := Nat.lt_asymm h
      simp [stIns, hef, hfe, h, h1]
    · have h1 : ¬ e < f := Nat.lt_asymm h
      simp [stIns, hef, hfe, h, h1]
  | cons p s ih =>
    obtain ⟨g, m⟩ := p
    by_cases heg : e = g
    · subst heg
      rcases Nat.lt_or_gt_of_ne hfe with h | h
      · have h1 : ¬ e < f := Nat.lt_asymm h
        simp [stIns, hef, hfe, h, h1]
      · have h1 : ¬ f < e := Nat.lt_asymm h
        simp [stIns, hef, hfe, h, h1]
    · by_cases hfg : f = g
      · subst hfg
        rcases Nat.lt_or_gt_of_ne hef with h | h
        · have h1 : ¬ f < e := Nat.lt_asymm h
          simp [stIns, hef, hfe, heg, h, h1]
        · have h1 : ¬ e < f := Nat.lt_asymm h
          simp [stIns, hef, hfe, heg, h, h1]
      · by_cases heg2 : e < g
        · by_cases hfg2 : f < g
          · rcases Nat.lt_or_gt_of_ne hef with h | h
            · have h1 : ¬ f < e := Nat.lt_asymm h
              simp [stIns, hef, hfe, heg, hfg, heg2, hfg2, h, h1]
            · have h1 : ¬ e < f := Nat.lt_asymm h
              simp [stIns, hef, hfe, heg, hfg, heg2, hfg2, h, h1]
          · have h1 : e < f := by omega
            have h2 : ¬ f < e := by omega
            simp [stIns, hef, hfe, heg, hfg, heg2, hfg2, h1, h2]
        · by_cases hfg2 : f < g
          · have h1 : f < e := by omega
            have h2 : ¬ e < f := by omega
            simp [stIns, hef, hfe, heg, hfg, heg2, hfg2, h1, h2]
          · simp [stIns, hef, hfe, heg, hfg, heg2, hfg2, ih]

theorem apply_update_eq_spec (s : Storage) (u : EthMsgUpdate) (powers : Sighting → Option ℚ)
    (vm : List (ℕ × ℚ)) (hbv : build_votes powers [] u.seen_by = some vm) :
    apply_update s u powers = some (apply_update_spec s u powers) := by
  unfold apply_update apply_update_spec upd_exists upd_tally
  cases hs : stLookup u.body s.store with
  | none => simp [has_key, hs, hbv, write_eth_msg]
  | some pre =>
    simp [has_key, hs, hbv, calculate_updated, read_tally, write_eth_msg]

theorem apply_update_none_iff (s : Storage) (u : EthMsgUpdate) (powers : Sighting → Option ℚ) :
    apply_update s u powers = none ↔ build_votes powers [] u.seen_by = none := by
  constructor
  · intro h
    cases hbv : build_votes powers [] u.seen_by with
    | none => rfl
    | some vm =>
      rw [apply_update_eq_spec s u powers vm hbv] at h
      exact absurd h (by simp)
  · exact apply_update_build_votes_none s u powers

theorem stLookup_spec_ne (s : Storage) (u : EthMsgUpdate) (powers : Sighting → Option ℚ)
    (e : ℕ) (he : e ≠ u.body) :
    stLookup e (apply_update_spec s u powers).1.store = stLookup e s.store :=
  stLookup_stIns_ne e u.body _ he s.store

theorem apply_update_spec_snd_congr (s s' : Storage) (u : EthMsgUpdate)
    (powers : Sighting → Option ℚ)
    (hst : stLookup u.body s'.store = stLookup u.body s.store) :
    (apply_update_spec s' u powers).2 = (apply_update_spec s u powers).2 := by
  unfold apply_update_spec upd_exists
  rw [hst]

theorem apply_update_spec_comm (s : Storage) (u v : EthMsgUpdate)
    (powers : Sighting → Option ℚ) (hne : u.body ≠ v.body) :
    (apply_update_spec (apply_update_spec s u powers).1 v powers).1
      = (apply_update_spec (apply_update_spec s v powers).1 u powers).1 := by
  unfold apply_update_spec upd_exists upd_tally
  rw [stLookup_stIns_ne v.body u.body _ (Ne.symm hne) s.store,
    stLookup_stIns_ne u.body v.body _ hne s.store]
  simp only [Storage.mk.injEq]
  refine ⟨stIns_comm v.body u.body _ _ (Ne.symm hne) s.store, ?_, trivial⟩
  cases (stLookup u.body s.store).isSome <;> cases (stLookup v.body s.store).isSome <;> simp

theorem go_rel_refl : ∀ r, go_rel r r
  | none => trivial
  | some _ => ⟨rfl, rfl, List.Perm.refl _⟩

theorem go_rel_trans :
    ∀ {r1 r2 r3 : Option (Storage × Finset Key × List ℕ)},
      go_rel r1 r2 → go_rel r2 r3 → go_rel r1 r3
  | none, none, none, _, _ => trivial
  | none, none, some _, _, h => h.elim
  | none, some _, _, h, _ => h.elim
  | some _, none, _, h, _ => h.elim
  | some _, some _, none, _, h => h.elim
  | some _, some _, some _, ⟨h1, h2, h3⟩, ⟨g1, g2, g3⟩ =>
    ⟨h1.trans g1, h2.trans g2, h3.trans g3⟩

theorem go_conf_factor (powers : Sighting → Option ℚ) :
    ∀ (l : List EthMsgUpdate) (s : Storage) (ks : Finset Key) (conf : List ℕ),
      apply_updates_go powers s ks conf l
        = (apply_updates_go powers s ks [] l).map (fun t => (t.1, t.2.1, conf ++ t.2.2))
  | [], s, ks, conf => by simp [apply_updates_go]
  | u :: rest, s, ks, conf => by
    cases h : apply_update s u powers with
    | none => simp [apply_updates_go, h]
    | some r =>
      obtain ⟨s1, ch, b⟩ := r
      simp only [apply_updates_go, h, List.nil_append]
      rw [go_conf_factor powers rest s1 (ks ∪ ch) (if b then conf ++ [u.body] else conf),
        go_conf_factor powers rest s1 (ks ∪ ch) (if b then [u.body] else [])]
      cases hgo : apply_updates_go powers s1 (ks ∪ ch) [] rest with
      | none => simp
      | some t =>
        obtain ⟨ts, tk, tc⟩ := t
        cases b <;> simp [List.append_assoc]

theorem go_two_steps (powers : Sighting → Option ℚ) (s : Storage)
    (ks : Finset Key) (conf : List ℕ) (x y : EthMsgUpdate) (l : List EthMsgUpdate)
    (vmx : List (ℕ × ℚ)) (vmy : List (ℕ × ℚ))
    (hbx : build_votes powers [] x.seen_by = some vmx)
    (hby : build_votes powers [] y.seen_by = some vmy)
    (hne : x.body ≠ y.body) :
    go_rel (apply_updates_go powers s ks conf (y :: x :: l))
      (apply_updates_go powers s ks conf (x :: y :: l)) := by
  have happy := apply_update_eq_spec s y powers vmy hby
  have happx2 := apply_update_eq_spec (apply_update_spec s y powers).1 x powers vmx hbx
  have happx := apply_update_eq_spec s x powers vmx hbx
  have happy2 := apply_update_eq_spec (apply_update_spec s x powers).1 y powers vmy hby
  simp only [apply_updates_go, happy, happx2, happx, happy2]
  set A := apply_update_spec s y powers with hA
  set B := apply_update_spec s x powers with hB
  set AX := apply_update_spec A.1 x powers with hAX
  set BY := apply_update_spec B.1 y powers with hBY
  have hsnx : AX.2 = B.2 := by
    rw [hAX, hB, hA]
    exact apply_update_spec_snd_congr s _ x powers (stLookup_spec_ne s y powers x.body hne)
  have hsny : BY.2 = A.2 := by
    rw [hBY, hA, hB]
    exact apply_update_spec_snd_congr s _ y powers
      (stLookup_spec_ne s x powers y.body (Ne.symm hne))
  have hS : AX.1 = BY.1 := by
    rw [hAX, hBY, hA, hB]
    exact apply_update_spec_comm s y x powers (Ne.symm hne)
  have hK : (ks ∪ A.2.1) ∪ AX.2.1 = (ks ∪ B.2.1) ∪ BY.2.1 := by
    rw [congrArg Prod.fst hsnx, congrArg Prod.fst hsny]
    exact Finset.union_right_comm ks A.2.1 B.2.1
  have hC : List.Perm
      (if AX.2.2 then (if A.2.2 then conf ++ [y.body] else conf) ++ [x.body]
        else if A.2.2 then conf ++ [y.body] else conf)
      (if BY.2.2 then (if B.2.2 then conf ++ [x.body] else conf) ++ [y.body]
        else if B.2.2 then conf ++ [x.body] else conf) := by
    rw [congrArg Prod.snd hsnx, congrArg Prod.snd hsny]
    cases B.2.2 <;> cases A.2.2
    · exact List.Perm.refl _
    · simp
    · simp
    · simp only [if_pos]
      rw [List.append_assoc, List.append_assoc]
      exact List.Perm.append_left conf List.perm_append_comm
  rw [hS, hK]
  rw [go_conf_factor powers l BY.1 ((ks ∪ B.2.1) ∪ BY.2.1)
      (if AX.2.2 then (if A.2.2 then conf ++ [y.body] else conf) ++ [x.body]
        else if A.2.2 then conf ++ [y.body] else conf),
    go_conf_factor powers l BY.1 ((ks ∪ B.2.1) ∪ BY.2.1)
      (if BY.2.2 then (if B.2.2 then conf ++ [x.body] else conf) ++ [y.body]
        else if B.2.2 then conf ++ [x.body] else conf)]
  cases hgo : apply_updates_go powers BY.1 ((ks ∪ B.2.1) ∪ BY.2.1) [] l with
  | none => trivial
  | some t => exact ⟨rfl, rfl, List.Perm.append_right t.2.2 hC⟩

theorem go_perm (powers : Sighting → Option ℚ) :
    ∀ {l1 l2 : List EthMsgUpdate}, List.Perm l1 l2 →
      (l1.map EthMsgUpdate.body).Nodup →
      ∀ (s : Storage) (ks : Finset Key) (conf : List ℕ),
        go_rel (apply_updates_go powers s ks conf l1)
          (apply_updates_go powers s ks conf l2) := by
  intro l1 l2 hp
  induction hp with
  | nil =>
    intro _ s ks conf
    exact go_rel_refl _
  | cons x hp ih =>
    intro hnd s ks conf
    cases h : apply_update s x powers with
    | none =>
      simp only [apply_updates_go, h]
      trivial
    | some r =>
      obtain ⟨s1, ch, b⟩ := r
      simp only [apply_updates_go, h]
      refine ih ?_ s1 (ks ∪ ch) (if b then conf ++ [x.body] else conf)
      have h2 := hnd
      simp only [List.map_cons, List.nodup_cons] at h2
      exact h2.2
  | swap x y l =>
    intro hnd s ks conf
    have hxy : x.body ≠ y.body := by
      simp only [List.map_cons, List.nodup_cons, List.mem_cons] at hnd
      intro he
      exact hnd.1 (Or.inl he.symm)
    cases hbx : build_votes powers [] x.seen_by with
    | none =>
      have hax : ∀ st : Storage, apply_update st x powers = none :=
        fun st => apply_update_build_votes_none st x powers hbx
      cases hby : build_votes powers [] y.seen_by with
      | none =>
        have hay : ∀ st : Storage, apply_update st y powers = none :=
          fun st => apply_update_build_votes_none st y powers hby
        simp only [apply_updates_go, hax, hay]
        trivial
      | some vmy =>
        have hay := apply_update_eq_spec s y powers vmy hby
        simp only [apply_updates_go, hay, hax]
        trivial
    | some vmx =>
      cases hby : build_votes powers [] y.seen_by with
      | none =>
        have hay : ∀ st : Storage, apply_update st y powers = none :=
          fun st => apply_update_build_votes_none st y powers hby
        have hax := apply_update_eq_spec s x powers vmx hbx
        simp only [apply_updates_go, hax, hay]
        trivial
      | some vmy =>
        exact go_two_steps powers s ks conf x y l vmx vmy hbx hby hxy
  | trans hp1 hp2 ih1 ih2 =>
    intro hnd s ks conf
    exact go_rel_trans (ih1 hnd s ks conf)
      (ih2 ((hp1.map EthMsgUpdate.body).nodup hnd) s ks conf)

/-- C8: processing the updates of a batch in any order yields the same
final storage (tally records and access counters alike) and the same
changed key set, provided the updates are for pairwise distinct events;
and permuting the order in which one event's sightings are gathered
into its merged BTreeSet yields the same set, hence the same merged
tally (the weight summation is commutative). -/
theorem batch_order_independent (powers : Sighting → Option ℚ) :
    (∀ (s : Storage) (act_on : ℕ → Finset Key) (l1 l2 : List EthMsgUpdate),
        List.Perm l1 l2 → (l1.map EthMsgUpdate.body).Nodup →
          (apply_updates s l1 powers act_on).map (fun r => (r.1, r.2.1))
            = (apply_updates s l2 powers act_on).map (fun r => (r.1, r.2.1)))
      ∧ (∀ (pre : EthMsg) (s1 s2 : List Sighting), List.Perm s1 s2 →
          calculate_update pre (resolved_votes powers (sOfList s1))
            = calculate_update pre (resolved_votes powers (sOfList s2))) := by
  constructor
  · intro s act_on l1 l2 hp hnd
    have h := go_perm powers hp hnd s ∅ []
    unfold apply_updates
    cases h1 : apply_updates_go powers s ∅ [] l1 with
    | none =>
      cases h2 : apply_updates_go powers s ∅ [] l2 with
      | none => rfl
      | some t2 =>
        rw [h1, h2] at h
        exact h.elim
    | some t1 =>
      cases h2 : apply_updates_go powers s ∅ [] l2 with
      | none =>
        rw [h1, h2] at h
        exact h.elim
      | some t2 =>
        rw [h1, h2] at h
        obtain ⟨ts1, tk1, tc1⟩ := t1
        obtain ⟨ts2, tk2, tc2⟩ := t2
        obtain ⟨hs, hk, hc⟩ := h
        simp only at hs hk hc
        subst hs
        subst hk
        have hfold : tc1.foldl (fun acc e => acc ∪ act_on e) tk1
            = tc2.foldl (fun acc e => acc ∪ act_on e) tk1 :=
          hc.foldl_eq' (fun a _ b _ z => Finset.union_right_comm z (act_on a) (act_on b)) tk1
        simp [hfold]
  · intro pre s1 s2 hp
    rw [sOfList_perm_eq hp]

/-- Witness for C8: swapping two updates for the distinct events 5 and
6, and swapping the two sightings of one event. -/
theorem batch_order_independent_witness :
    ((apply_updates storage0 [upd_A, { body := 6, seen_by := [(1, 20)] }] pow_half act_none).map
        (fun r => (r.1, r.2.1))
      = (apply_updates storage0 [{ body := 6, seen_by := [(1, 20)] }, upd_A] pow_half act_none).map
        (fun r => (r.1, r.2.1)))
    ∧ calculate_update ⟨5, 0, ∅, false⟩ (resolved_votes pow_half (sOfList [(0, 10), (1, 20)]))
        = calculate_update ⟨5, 0, ∅, false⟩ (resolved_votes pow_half (sOfList [(1, 20), (0, 10)])) :=
  ⟨(batch_order_independent pow_half).1 storage0 act_none
      [upd_A, { body := 6, seen_by := [(1, 20)] }] [{ body := 6, seen_by := [(1, 20)] }, upd_A]
      (List.Perm.swap { body := 6, seen_by := [(1, 20)] } upd_A []) (by decide),
   (batch_order_independent pow_half).2 ⟨5, 0, ∅, false⟩ [(0, 10), (1, 20)] [(1, 20), (0, 10)]
      (List.Perm.swap (1, 20) (0, 10) [])⟩

end EthereumEvents
